import Mathlib

/-!
Verification development for the space-sandbox-sim repository.

The Python sources under src/ are shallowly embedded over exact rational
arithmetic (ℚ).  Two-dimensional pygame vectors become pairs of rationals.
Python float operations are modelled exactly; functions of the source that
compute irrational values (math.sqrt, x ** (1/3), Vector2.normalize) are
modelled by partial functions that return the exact value when it is rational
and signal failure (none) otherwise, so that every theorem below is about
exactly representable runs of the code.  Comparisons of the form
length(v) < bound that the source performs on square roots are embedded by
the equivalent exact comparison on squares (for a nonnegative left-hand side,
sqrt d2 < b iff 0 ≤ b and d2 < b ^ 2), which avoids computing the root.
Python exceptions (ZeroDivisionError, the pygame ValueError raised when a
zero vector is normalized, AttributeError on None) are modelled with
Option/Except error values.  Object identity (the Python "is" operator) is
modelled by a numeric id field carried by every body; distinct body objects
are embedded with distinct ids.
-/

namespace SpaceSim

/-- Two-dimensional vector over the rationals, embedding pygame.math.Vector2. -/
abbrev Vec2 : Type := ℚ × ℚ

/-- Squared Euclidean norm of a vector, embedding Vector2.length_squared(). -/
def normSq (v : Vec2) : ℚ := v.1 ^ 2 + v.2 ^ 2

/-- Scalar multiplication helper for Vec2. -/
def smul (a : ℚ) (v : Vec2) : Vec2 := (a * v.1, a * v.2)

/-- Division of a vector by a scalar. -/
def vdiv (v : Vec2) (a : ℚ) : Vec2 := (v.1 / a, v.2 / a)

/-- Integer square root by bounded search (used only on small witnesses). -/
def natSqrtB (n : Nat) : Nat :=
  ((List.range (n + 2)).filter (fun k => k ^ 2 ≤ n)).foldl Nat.max 0

/-- Exact rational square root: returns some r with r ≥ 0 and r ^ 2 = q when
q is the square of a rational, and none otherwise.  This models math.sqrt and
Vector2.length() restricted to the exactly representable cases (none also
covers the ValueError that math.sqrt raises on negative input). -/
def ratSqrt (q : ℚ) : Option ℚ :=
  if q < 0 then none
  else if (natSqrtB q.num.toNat) ^ 2 = q.num.toNat ∧ (natSqrtB q.den) ^ 2 = q.den then
    some ((natSqrtB q.num.toNat : ℚ) / (natSqrtB q.den : ℚ))
  else none

/-- Integer cube root by bounded search (used only on small witnesses). -/
def natCbrt (n : Nat) : Nat :=
  ((List.range (n + 2)).filter (fun k => k ^ 3 ≤ n)).foldl Nat.max 0

/-- Exact rational cube root: some r with r ^ 3 = q when q ≥ 0 is the cube of
a rational, none otherwise.  Models the Python expression mass ** (1 / 3)
restricted to the exactly representable cases. -/
def ratCbrt (q : ℚ) : Option ℚ :=
  if q < 0 then none
  else if (natCbrt q.num.toNat) ^ 3 = q.num.toNat ∧ (natCbrt q.den) ^ 3 = q.den then
    some ((natCbrt q.num.toNat : ℚ) / (natCbrt q.den : ℚ))
  else none

/-- Normalization of a vector, embedding Vector2.normalize().  Returns none
when the vector is zero (pygame raises ValueError) or when its length is
irrational (not exactly representable in the model). -/
def qnormalize (v : Vec2) : Option Vec2 :=
  if v = (0, 0) then none
  else (ratSqrt (normSq v)).map (fun l => vdiv v l)

/-- Embedding of model/body.py class Body.  Velocity is stored implicitly as
(pos - oldPos) / dt exactly as the source stores _pos and _old_pos; the
simulation time step dt (SimState().time_step) is passed explicitly where
needed.  The id field models Python object identity. -/
structure Body where
  id : Nat
  pos : Vec2
  oldPos : Vec2
  mass : ℚ
  radius : ℚ
  force : Vec2
  baseColor : ℚ × ℚ × ℚ
  deriving DecidableEq

/-- Velocity getter of Body: (self._pos - self._old_pos) / SimState().time_step. -/
def Body.vel (dt : ℚ) (b : Body) : Vec2 := vdiv (b.pos - b.oldPos) dt

/-- Velocity setter of Body: self._old_pos = self._pos - value * time_step. -/
def Body.setVel (dt : ℚ) (b : Body) (value : Vec2) : Body :=
  { b with oldPos := b.pos - smul dt value }

/-- Position setter of Body: remembers delta = pos - old_pos, assigns the new
position and rewrites old_pos to value - delta. -/
def Body.setPos (b : Body) (value : Vec2) : Body :=
  let delta := b.pos - b.oldPos
  { b with pos := value, oldPos := value - delta }

/-- Force accumulator of Body: self.force += force. -/
def Body.addForce (b : Body) (f : Vec2) : Body :=
  { b with force := b.force + f }

/-- Exact rational value of the IEEE double math.pi used by the Python runtime. -/
def mathPi : ℚ := 884279719003555 / 281474976710656

/-- Area property of Body: math.pi * self.radius ** 2. -/
def Body.area (b : Body) : ℚ := mathPi * b.radius ^ 2

/-- Density getter of Body: self.mass / self.area. -/
def Body.density (b : Body) : ℚ := b.mass / b.area

/-- Density setter of Body: self.mass = value * self.area. -/
def Body.setDensity (b : Body) (value : ℚ) : Body :=
  { b with mass := value * b.area }

/-- Constructor of Body (model/body.py __init__): when no radius is given the
radius defaults to mass ** (1 / 3); _old_pos starts equal to _pos and the
accumulated force starts at zero.  Returns none when the default radius is
not exactly representable. -/
def mkBody (id : Nat) (pos : Vec2) (mass : ℚ) (baseColor : ℚ × ℚ × ℚ)
    (radius : Option ℚ) : Option Body :=
  match radius with
  | some r => some ⟨id, pos, pos, mass, r, (0, 0), baseColor⟩
  | none => (ratCbrt mass).map (fun r => ⟨id, pos, pos, mass, r, (0, 0), baseColor⟩)

/-- Embedding of utils/utils.py merge_bodies.  Builds a body with the summed
mass, mass-weighted position and color and default radius, then assigns the
mass-weighted density (whose setter rewrites the mass) and finally the
mass-weighted velocity.  The fresh body gets a fresh id. -/
def mergeBodies (dt : ℚ) (freshId : Nat) (body1 body2 : Body) : Option Body :=
  let newMass := body1.mass + body2.mass
  let newPos := vdiv (smul body1.mass body1.pos + smul body2.mass body2.pos) newMass
  let c1 := body1.baseColor
  let c2 := body2.baseColor
  let newColor : ℚ × ℚ × ℚ :=
    ((c1.1 * body1.mass + c2.1 * body2.mass) / newMass,
     (c1.2.1 * body1.mass + c2.2.1 * body2.mass) / newMass,
     (c1.2.2 * body1.mass + c2.2.2 * body2.mass) / newMass)
  (mkBody freshId newPos newMass newColor none).map (fun nb =>
    let nb1 := nb.setDensity
      ((body1.density * body1.mass + body2.density * body2.mass) / newMass)
    nb1.setVel dt (vdiv (smul body1.mass (body1.vel dt) + smul body2.mass (body2.vel dt)) newMass))

/-! ### Composite bodies (model/composite_body.py) -/

/-- Total mass of a composite: sum of member masses. -/
def totalMass (bodies : List Body) : ℚ := (bodies.map Body.mass).sum

/-- Center-of-mass velocity of a composite: mass-weighted average of member
velocities (CompositeBody.center_of_mass_velocity). -/
def comVel (dt : ℚ) (bodies : List Body) : Vec2 :=
  vdiv ((bodies.map (fun b => smul b.mass (b.vel dt))).sum) (totalMass bodies)

/-- Embedding of CompositeBody.add_internal_energy: computes the
center-of-mass velocity once, then for every member adds
normalize(vel - cv) * sqrt(2 * energy / mass) to its velocity.  Returns none
when a normalization or square root falls outside the exact model (zero
relative velocity raises ValueError in pygame; negative radicand raises
ValueError in math.sqrt; irrational values are not representable). -/
def addInternalEnergy (dt : ℚ) (bodies : List Body) (energy : ℚ) : Option (List Body) :=
  let cv := comVel dt bodies
  bodies.mapM (fun b => do
    let u ← qnormalize (b.vel dt - cv)
    let s ← ratSqrt (2 * energy / b.mass)
    pure (b.setVel dt (b.vel dt + smul s u)))

/-! ### Springs (model/springs.py) -/

/-- Spring record, embedding the 7-tuple
(body1, body2, stiffness, damping, equilibrium, break_distance_factor,
break_force).  Bodies are referenced by id; breakForce is an Option so that
none models the default const.SPRING_BREAK_FORCE = float(inf), for which the
comparison f_mag > break_force is always false. -/
structure SpringT where
  b1 : Nat
  b2 : Nat
  stiffness : ℚ
  damping : ℚ
  equilibrium : ℚ
  breakDistanceFactor : ℚ
  breakForce : Option ℚ
  deriving DecidableEq

/-- State of the Springs object: the live body list, the spring list and the
simulation time step. -/
structure SpringsState where
  bodies : List Body
  springs : List SpringT
  dt : ℚ
  deriving DecidableEq

/-- Lookup of a body by identity in the live list (BodyList membership uses
object identity). -/
def findBody (bodies : List Body) (i : Nat) : Option Body :=
  bodies.find? (fun b => b.id = i)

/-- Exact embedding of the comparison sqrt d2 > bound, for d2 ≥ 0: the source
compares a computed length against the bound, which is equivalent to
bound < 0, or d2 > bound squared. -/
def sqrtGt (d2 bound : ℚ) : Bool := bound < 0 || d2 > bound ^ 2

/-- Exact embedding of the comparison sqrt d2 < bound, for d2 ≥ 0. -/
def sqrtLt (d2 bound : ℚ) : Bool := 0 ≤ bound && d2 < bound ^ 2

/-- Embedding of Springs.link: when no equilibrium is given it defaults to
the current distance between the bodies (none when that distance is
irrational); the spring is appended unconditionally. -/
def link (st : SpringsState) (body1 body2 : Body) (stiffness damping : ℚ)
    (equilibrium : Option ℚ) (breakDistanceFactor : ℚ) (breakForce : Option ℚ) :
    Option SpringsState := do
  let equi ← match equilibrium with
    | some e => pure e
    | none => ratSqrt (normSq (body2.pos - body1.pos))
  pure { st with springs :=
    st.springs ++ [⟨body1.id, body2.id, stiffness, damping, equi, breakDistanceFactor, breakForce⟩] }

/-- Springs.link with all defaulted parameters: const.SPRING_STIFFNESS = 10,
const.SPRING_DAMPING = 1, equilibrium = None,
const.SPRING_BREAK_DISTANCE_FACTOR = 3, const.SPRING_BREAK_FORCE = inf. -/
def linkDefault (st : SpringsState) (body1 body2 : Body) : Option SpringsState :=
  link st body1 body2 10 1 none 3 none

/-- Embedding of Springs.connected: scans the spring list for one whose
endpoints are the two bodies, in either order. -/
def connected (st : SpringsState) (body1 body2 : Body) : Bool :=
  st.springs.any (fun s =>
    (body1.id == s.b1 && body2.id == s.b2) || (body1.id == s.b2 && body2.id == s.b1))

/-- Outcome of one iteration of the Springs.update loop for one spring:
the spring is scheduled for removal, skipped (near-zero length), or applies
the force f to body1 and -f to body2. -/
inductive SpringOutcome where
  | removeSpring
  | skip
  | applyF (f : Vec2)
  deriving DecidableEq

/-- Spring.MAX_SPRING_FORCE. -/
def maxSpringForce : ℚ := 10 ^ 9

/-- Clamping step of Springs.update: if the force magnitude exceeds
MAX_SPRING_FORCE the force is rescaled to that magnitude. -/
def clampApply (fm2 : ℚ) (f : Vec2) : Option SpringOutcome :=
  if sqrtGt fm2 maxSpringForce then
    (qnormalize f).map (fun u => SpringOutcome.applyF (smul maxSpringForce u))
  else some (SpringOutcome.applyF f)

/-- Embedding of the body of the Springs.update loop for a single spring s:
removal when either endpoint left the live list, removal when the length
exceeds break_distance_factor * equilibrium, skip when the length is below
1e-3, removal when the force magnitude exceeds break_force, and otherwise the
(possibly clamped) spring force
stiffness * (l - equilibrium) * normalize(d) - damping * (v1 - v2).
Returns none when the exact model cannot represent the computed length. -/
def springStep (bodies : List Body) (dt : ℚ) (s : SpringT) : Option SpringOutcome :=
  match findBody bodies s.b1, findBody bodies s.b2 with
  | some bb1, some bb2 =>
    let d := bb2.pos - bb1.pos
    let d2 := normSq d
    if sqrtGt d2 (s.breakDistanceFactor * s.equilibrium) then some .removeSpring
    else if sqrtLt d2 (1 / 1000) then some .skip
    else do
      let l ← ratSqrt d2
      let f := smul (s.stiffness * (l - s.equilibrium)) (vdiv d l) -
               smul s.damping (bb1.vel dt - bb2.vel dt)
      let fm2 := normSq f
      match s.breakForce with
      | some bf => if sqrtGt fm2 bf then pure .removeSpring else clampApply fm2 f
      | none => clampApply fm2 f
  | _, _ => some .removeSpring

/-- Application of a force to the body with the given id (Body.add_force on
the object the spring references). -/
def applyForceToId (bodies : List Body) (i : Nat) (f : Vec2) : List Body :=
  bodies.map (fun b => if b.id = i then b.addForce f else b)

/-- Body of the Springs.update loop: a removal outcome appends the spring to
the removal list, a skip leaves the state alone, and a force outcome adds f
to body1 and -f to body2. -/
def updateStep (dt : ℚ) (acc : List Body × List SpringT) (s : SpringT) :
    Option (List Body × List SpringT) :=
  match springStep acc.1 dt s with
  | none => none
  | some .removeSpring => some (acc.1, acc.2 ++ [s])
  | some .skip => some acc
  | some (.applyF f) => some (applyForceToId (applyForceToId acc.1 s.b1 f) s.b2 (-f), acc.2)

/-- Embedding of Springs.update: iterates over the springs accumulating a
removal list and force updates, then erases every spring of the removal list
from the spring list (first matching occurrence each, as list.remove does). -/
def update (st : SpringsState) : Option SpringsState := do
  let acc ← st.springs.foldlM (updateStep st.dt) (st.bodies, ([] : List SpringT))
  pure { st with bodies := acc.1, springs := acc.2.foldl List.erase st.springs }

/-- Predicate of claim C7, stated exactly as the break test of the source:
both endpoints are live and the current spring length exceeds
break_distance_factor * equilibrium. -/
def lengthExceeds (bodies : List Body) (s : SpringT) : Bool :=
  match findBody bodies s.b1, findBody bodies s.b2 with
  | some bb1, some bb2 =>
      sqrtGt (normSq (bb2.pos - bb1.pos)) (s.breakDistanceFactor * s.equilibrium)
  | _, _ => false

/-! ### Pairwise force models (model/forces.py) -/

/-- Error outcomes of the force models: Python ZeroDivisionError, the pygame
ValueError raised when normalizing a zero vector, and values outside the
exact rational model. -/
inductive ForceErr where
  | zeroDivision
  | normalizeZero
  | notExact
  deriving DecidableEq

/-- Embedding of forces.py gravitational_force: G * m1 * m2 / dist_sq along
the normalized displacement.  A zero distance raises ZeroDivisionError. -/
def gravitationalForce (G : ℚ) (body1 body2 : Body) : Except ForceErr Vec2 :=
  let delta := body2.pos - body1.pos
  let d2 := normSq delta
  if d2 = 0 then .error .zeroDivision
  else
    let mag := G * body1.mass * body2.mass / d2
    match qnormalize delta with
    | some u => .ok (smul mag u)
    | none => .error .notExact

/-- Embedding of forces.py repulsion_force.  The overlap factor g and the
power g ** beta are kept abstract (factor is a parameter of the source
generator as well, and the power is irrational in general); the claims below
do not depend on their values.  Normalizing the zero displacement of
coincident bodies raises ValueError. -/
def repulsionForce (factor : ℚ → ℚ → ℚ → ℚ) (powFn : ℚ → ℚ → ℚ)
    (strength slack beta : ℚ) (body1 body2 : Body) : Except ForceErr Vec2 :=
  let delta := body1.pos - body2.pos
  match ratSqrt (normSq delta) with
  | none => .error .notExact
  | some dist =>
    if dist > body1.radius + body2.radius + slack then .ok (0, 0)
    else
      let g := factor body1.radius body2.radius dist
      let fmag := strength * powFn g beta
      match qnormalize delta with
      | some u => .ok (smul fmag u)
      | none => if delta = ((0 : ℚ), (0 : ℚ)) then .error .normalizeZero else .error .notExact

/-- Embedding of forces.py collision_damping_force: zero force when the
bodies do not penetrate, otherwise a damping force along the collision
normal.  Normalizing the zero displacement of coincident bodies raises
ValueError. -/
def collisionDampingForce (damping : ℚ) (dt : ℚ) (body1 body2 : Body) : Except ForceErr Vec2 :=
  let displacement := body2.pos - body1.pos
  match ratSqrt (normSq displacement) with
  | none => .error .notExact
  | some dist =>
    if body1.radius + body2.radius - dist < 0 then .ok (0, 0)
    else
      match qnormalize displacement with
      | none => if displacement = ((0 : ℚ), (0 : ℚ)) then .error .normalizeZero else .error .notExact
      | some n =>
        let relVel := body1.vel dt - body2.vel dt
        let velAlong := relVel.1 * n.1 + relVel.2 * n.2
        .ok (smul (-damping * velAlong) n)

/-! ### Barnes-Hut quadtree (model/bh.py) -/

/-- Node of the quadtree: spatial center, region width, aggregate mass,
center of mass, optional stored body (leaf) and sub-regions. -/
inductive QNode where
  | mk (center : Vec2) (width : ℚ) (mass : ℚ) (massCenter : Vec2)
       (body : Option Body) (children : List QNode)

/-- Spatial center of a node. -/
def QNode.center : QNode → Vec2
  | .mk c _ _ _ _ _ => c

/-- Region width of a node. -/
def QNode.width : QNode → ℚ
  | .mk _ w _ _ _ _ => w

/-- Aggregate mass of a node. -/
def QNode.mass : QNode → ℚ
  | .mk _ _ m _ _ _ => m

/-- Center of mass of a node. -/
def QNode.massCenter : QNode → Vec2
  | .mk _ _ _ mc _ _ => mc

/-- Body stored at a node, when the node is a leaf. -/
def QNode.body : QNode → Option Body
  | .mk _ _ _ _ b _ => b

/-- Sub-regions of a node. -/
def QNode.children : QNode → List QNode
  | .mk _ _ _ _ _ cs => cs

/-- Embedding of BarnesHut._contains: half-open square membership test of a
position in a node region. -/
def containsPos (center : Vec2) (width : ℚ) (p : Vec2) : Bool :=
  let hw := width / 2
  decide (center.1 - hw ≤ p.1) && decide (p.1 < center.1 + hw) &&
  decide (center.2 - hw ≤ p.2) && decide (p.2 < center.2 + hw)

/-- Containment of a body in a node region. -/
def containsB (n : QNode) (b : Body) : Bool := containsPos n.center n.width b.pos

/-- Embedding of BarnesHut._subdivide: the four fresh child nodes, in the
iteration order of the source (dx outer loop, dy inner loop). -/
def subdivideChildren (center : Vec2) (width : ℚ) : List QNode :=
  let hw := width / 2
  let qw := width / 4
  [((-qw : ℚ), (-qw : ℚ)), (-qw, qw), (qw, -qw), (qw, qw)].map
    (fun d => QNode.mk (center + d) hw 0 (0, 0) none [])

/-- Sum of the masses of a list of nodes. -/
def sumMass (cs : List QNode) : ℚ := (cs.map QNode.mass).sum

/-- Aggregate recomputation at the end of BarnesHut._insert_body: node mass
becomes the sum of the children masses and the mass center their weighted
average (or the origin when the mass is not positive). -/
def recompute (center : Vec2) (width : ℚ) (body : Option Body) (cs : List QNode) : QNode :=
  let m := sumMass cs
  let mc := if m > 0 then vdiv ((cs.map (fun c => smul c.mass c.massCenter)).sum) m else (0, 0)
  QNode.mk center width m mc body cs

/-- Insertion into the first child whose region contains the body, the child
insertion itself being given as the function argument; when no child contains
the body the children are returned unchanged (the body is silently dropped,
as in the source loop that simply finds no child). -/
def insertChildWith (ins : QNode → Option QNode) : List QNode → Body → Option (List QNode)
  | [], _ => some []
  | c :: cs, b =>
    if containsB c b then (ins c).map (fun c2 => c2 :: cs)
    else (insertChildWith ins cs b).map (fun cs2 => c :: cs2)

/-- Embedding of BarnesHut._insert_body.  An empty leaf stores the body
directly; otherwise a leaf is subdivided and its body reinserted, then the
new body goes into the first child whose region contains it, and the
aggregates are recomputed.  The fuel bounds the recursion depth of the
source; none models exhaustion (the unbounded recursion the source would
perform on coincident bodies). -/
def insertBody : Nat → QNode → Body → Option QNode
  | fuel, n, b =>
    if n.body.isNone && n.children.isEmpty then
      some (QNode.mk n.center n.width b.mass b.pos (some b) [])
    else
      match fuel with
      | 0 => none
      | fuel' + 1 => do
        let n1 ←
          if n.children.isEmpty then
            match n.body with
            | some old => do
                let m ← insertBody fuel'
                  (QNode.mk n.center n.width n.mass n.massCenter n.body
                    (subdivideChildren n.center n.width)) old
                pure (QNode.mk m.center m.width m.mass m.massCenter none m.children)
            | none => pure n
          else pure n
        let cs ← insertChildWith (fun c => insertBody fuel' c b) n1.children b
        pure (recompute n1.center n1.width n1.body cs)

/-- The four child regions (center, width) that a subdivision creates. -/
def subdivideRegions (center : Vec2) (width : ℚ) : List (Vec2 × ℚ) :=
  (subdivideChildren center width).map (fun c => (c.center, c.width))

mutual

/-- Structural invariant of trees built by the insertion: a leaf stores the
mass of its body (zero when empty) and a stored body lies inside the leaf
region; an internal node carries the sum of its children masses and its
children tile its region exactly as the subdivision creates them. -/
def wfNode : QNode → Bool
  | .mk center width mass _ body children =>
    match children with
    | [] =>
      (mass == (match body with | some b => b.mass | none => 0)) &&
      (match body with | some b => containsPos center width b.pos | none => true)
    | _ :: _ =>
      (mass == sumMass children) &&
      (children.map (fun c => (c.center, c.width)) == subdivideRegions center width) &&
      wfChildren children

/-- Conjunction of the structural invariant over a list of nodes. -/
def wfChildren : List QNode → Bool
  | [] => true
  | c :: cs => wfNode c && wfChildren cs

end

/-- Embedding of BarnesHut.build_tree.  An empty body set leaves the root
unset (some none).  The default region center is the average body position;
the default region width is twice the largest distance from the center
(computed here as the square root of the largest squared distance, which is
the same number).  The outer none models either fuel exhaustion or a default
width not representable in ℚ. -/
def buildTree (fuel : Nat) (bodies : List Body) (regionCenter : Option Vec2)
    (regionWidth : Option ℚ) : Option (Option QNode) :=
  if bodies = [] then some none
  else do
    let rc := match regionCenter with
      | some c => c
      | none => vdiv (bodies.map Body.pos).sum ((bodies.length : ℚ))
    let rw ← match regionWidth with
      | some w => pure w
      | none => do
          let md ← ratSqrt ((bodies.map (fun b => normSq (b.pos - rc))).foldl max 0)
          pure (2 * md)
    let root ← bodies.foldlM (fun t b => insertBody fuel t b) (QNode.mk rc rw 0 (0, 0) none [])
    pure (some root)

/-- Embedding of BarnesHut._bodies_overlap: distance strictly below the sum
of the radii (exact comparison on squares). -/
def bodiesOverlap (body1 body2 : Body) : Bool :=
  sqrtLt (normSq (body1.pos - body2.pos)) (body1.radius + body2.radius)

/-- Embedding of BarnesHut._regions_overlap: axis-aligned box test between a
body disc and a node region. -/
def regionsOverlap (b : Body) (center : Vec2) (width : ℚ) : Bool :=
  let hw := width / 2
  decide (|b.pos.1 - center.1| < b.radius + hw) &&
  decide (|b.pos.2 - center.2| < b.radius + hw)

/-- The unique identifier tuple(sorted((id(a), id(b)))) used to deduplicate
pairs. -/
def pairKey (i j : Nat) : Nat × Nat := if i ≤ j then (i, j) else (j, i)

/-- Accumulator of the overlap computation: the overlapping_pairs list and
the checked set. -/
abbrev OverlapAcc : Type := List (Body × Body) × List (Nat × Nat)

mutual

/-- Embedding of BarnesHut._check_overlap: searches the tree for bodies
overlapping qb, pruning subtrees whose regions do not overlap the disc of
qb, skipping qb itself and deduplicating through the checked set. -/
def checkOverlap (qb : Body) (t : QNode) (acc : OverlapAcc) : OverlapAcc :=
  match t with
  | .mk _ _ _ _ rbody children =>
    match children with
    | [] =>
      match rbody with
      | some rb =>
        if rb.id ≠ qb.id then
          if bodiesOverlap qb rb then
            if pairKey qb.id rb.id ∈ acc.2 then acc
            else (acc.1 ++ [(qb, rb)], acc.2 ++ [pairKey qb.id rb.id])
          else acc
        else acc
      | none => acc
    | _ :: _ => checkOverlapList qb children acc

/-- Loop of _check_overlap over the children of an internal node. -/
def checkOverlapList (qb : Body) (ts : List QNode) (acc : OverlapAcc) : OverlapAcc :=
  match ts with
  | [] => acc
  | c :: rest =>
      checkOverlapList qb rest
        (if regionsOverlap qb c.center c.width then checkOverlap qb c acc else acc)

end

mutual

/-- Embedding of BarnesHut._compute_overlapping_pairs: walks the leaves of
the tree and runs _check_overlap against the full tree for each stored
body. -/
def walkLeaves (full : QNode) (t : QNode) (acc : OverlapAcc) : OverlapAcc :=
  match t with
  | .mk _ _ _ _ rbody children =>
    match children with
    | [] =>
      match rbody with
      | some b => checkOverlap b full acc
      | none => acc
    | _ :: _ => walkLeavesList full children acc

/-- Loop of _compute_overlapping_pairs over the children of an internal
node. -/
def walkLeavesList (full : QNode) (ts : List QNode) (acc : OverlapAcc) : OverlapAcc :=
  match ts with
  | [] => acc
  | c :: rest => walkLeavesList full rest (walkLeaves full c acc)

end

/-- Embedding of BarnesHut.compute_overlapping_pairs on a built tree: the
resulting overlapping_pairs list. -/
def computePairs (root : QNode) : List (Body × Body) :=
  (walkLeaves root root ([], [])).1

/-- Proof invariant of the overlap accumulator: every recorded pair has
distinct ids and overlapping discs, the recorded pair keys are free of
duplicates, and every recorded key is in the checked set. -/
def AccInv (acc : OverlapAcc) : Prop :=
  (∀ p ∈ acc.1, p.1.id ≠ p.2.id ∧ bodiesOverlap p.1 p.2 = true) ∧
  (acc.1.map (fun p => pairKey p.1.id p.2.id)).Nodup ∧
  (∀ k ∈ acc.1.map (fun p => pairKey p.1.id p.2.id), k ∈ acc.2)

/-- Embedding of BarnesHut.compute_overlapping_pairs including the unbuilt
state: with the precondition check commented out in the source, a None root
is dereferenced and an AttributeError is raised (the error value). -/
def computePairsBH (root : Option QNode) : Except Unit (List (Body × Body)) :=
  match root with
  | none => .error ()
  | some t => .ok (computePairs t)

mutual

/-- Embedding of BarnesHut._calculate_force for one body against one node:
zero for the leaf holding the body itself, the force model on a leaf or a
far-enough node, and otherwise the sum over the children.  None models a
distance outside the exact model or the ZeroDivisionError of width / d at
distance zero (the source evaluates width / d only when the node is not a
leaf, because the or-test short-circuits). -/
def calculateForce (fm : Body → QNode → Vec2) (theta : ℚ) (b : Body) (t : QNode) : Option Vec2 :=
  match t with
  | .mk _ width _ mc nbody children =>
    if children.isEmpty && (nbody.map Body.id == some b.id) then some (0, 0)
    else do
      let d ← ratSqrt (normSq (mc - b.pos))
      if children.isEmpty then some (fm b t)
      else if d = 0 then none
      else if width / d < theta then some (fm b t)
      else calculateForceList fm theta b children

/-- Sum of the recursive forces over the children of an internal node. -/
def calculateForceList (fm : Body → QNode → Vec2) (theta : ℚ) (b : Body)
    (ts : List QNode) : Option Vec2 :=
  match ts with
  | [] => some (0, 0)
  | c :: rest => do
      let f ← calculateForce fm theta b c
      let fs ← calculateForceList fm theta b rest
      pure (f + fs)

end

/-- Embedding of BarnesHut.compute_forces: accumulates the computed force on
every body of the given list.  With the precondition check commented out in
the source, a None root is dereferenced inside _calculate_force as soon as
there is at least one body (none result); with an empty body list the loop
body never runs. -/
def computeForcesBH (fm : Body → QNode → Vec2) (theta : ℚ) (bodies : List Body)
    (root : Option QNode) : Option (List Body) :=
  bodies.mapM (fun b =>
    match root with
    | none => none
    | some t => (calculateForce fm theta b t).map (fun f => b.addForce f))

/-! ### Concrete example inputs used by witnesses and counterexamples -/

/-- First merge input: mass 1, radius 1, velocity (-1, 0) at dt = 1. -/
def mb1 : Body := ⟨0, (0, 0), (1, 0), 1, 1, (0, 0), (0, 0, 0)⟩

/-- Second merge input: mass 7, radius 1, at rest. -/
def mb2 : Body := ⟨1, (1, 0), (1, 0), 7, 1, (0, 0), (0, 0, 0)⟩

/-- Composite member of mass 1 with velocity (5, 0) at dt = 1. -/
def cbA : Body := ⟨0, (0, 0), (-5, 0), 1, 1, (0, 0), (0, 0, 0)⟩

/-- Composite member of mass 4 at rest. -/
def cbB : Body := ⟨1, (10, 0), (10, 0), 4, 1, (0, 0), (0, 0, 0)⟩

/-- Spring test body at the origin with velocity (1, 0) at dt = 1. -/
def sbA : Body := ⟨0, (0, 0), (-1, 0), 1, 1, (0, 0), (0, 0, 0)⟩

/-- Spring test body at (3, 4) at rest. -/
def sbB : Body := ⟨1, (3, 4), (3, 4), 1, 1, (0, 0), (0, 0, 0)⟩

/-- Spring-free state holding sbA and sbB. -/
def spSt : SpringsState := ⟨[sbA, sbB], [], 1⟩

/-- Spring test body at the origin, at rest. -/
def swA : Body := ⟨0, (0, 0), (0, 0), 1, 1, (0, 0), (0, 0, 0)⟩

/-- Spring test body at (3, 4), at rest. -/
def swB : Body := ⟨1, (3, 4), (3, 4), 1, 1, (0, 0), (0, 0, 0)⟩

/-- Spring-free state holding the two resting bodies. -/
def swSt : SpringsState := ⟨[swA, swB], [], 1⟩

/-- Spring between sbA and sbB whose rest length 1 is far exceeded by the
current separation 5 (break factor 3). -/
def s7 : SpringT := ⟨0, 1, 10, 1, 1, 3, none⟩

/-- State holding sbA, sbB and the overstretched spring. -/
def st7 : SpringsState := ⟨[sbA, sbB], [s7], 1⟩

/-- The state after update removes the overstretched spring. -/
def st7r : SpringsState := ⟨[sbA, sbB], [], 1⟩

/-- Tree test body at the origin with mass 1 and radius 3. -/
def tb1 : Body := ⟨0, (0, 0), (0, 0), 1, 3, (0, 0), (0, 0, 0)⟩

/-- Tree test body at (2, 0) with mass 1 and radius 3; with the default
region (center (1, 0), width 2) this body sits on the half-open boundary and
is silently dropped by the insertion. -/
def tb2 : Body := ⟨1, (2, 0), (2, 0), 1, 3, (0, 0), (0, 0, 0)⟩

/-- Tree witness body at (-1, -1) with mass 2. -/
def wb1 : Body := ⟨0, (-1, -1), (-1, -1), 2, 1, (0, 0), (0, 0, 0)⟩

/-- Tree witness body at (1, 1) with mass 3. -/
def wb2 : Body := ⟨1, (1, 1), (1, 1), 3, 1, (0, 0), (0, 0, 0)⟩

/-- Overlap witness body at (-1, -1) with radius 3. -/
def ob1 : Body := ⟨0, (-1, -1), (-1, -1), 1, 3, (0, 0), (0, 0, 0)⟩

/-- Overlap witness body at (1, 1) with radius 3. -/
def ob2 : Body := ⟨1, (1, 1), (1, 1), 1, 3, (0, 0), (0, 0, 0)⟩

/-- A concrete quadtree holding ob1 and ob2 in opposite quadrants. -/
def troot : QNode :=
  QNode.mk (0, 0) 8 2 (0, 0) none
    [QNode.mk (-2, -2) 4 1 (-1, -1) (some ob1) [],
     QNode.mk (-2, 2) 4 0 (0, 0) none [],
     QNode.mk (2, -2) 4 0 (0, 0) none [],
     QNode.mk (2, 2) 4 1 (1, 1) (some ob2) []]

/-- Two coincident bodies for the zero-distance force evaluations. -/
def gb1 : Body := ⟨0, (1, 1), (1, 1), 2, 1, (0, 0), (0, 0, 0)⟩

/-- Second coincident body. -/
def gb2 : Body := ⟨1, (1, 1), (1, 1), 3, 1, (0, 0), (0, 0, 0)⟩

/-! ### Theorems

The rational operations of Batteries are irreducible by default, which would
block evaluation of the concrete witnesses; they are made semireducible for
the rest of this development. -/

attribute [local semireducible] Rat.add Rat.mul Rat.sub Rat.inv Rat.ofScientific

/-- Specification of the exact square root: a some result is the nonnegative
square root of the argument. -/
theorem ratSqrt_spec (q r : ℚ) (h : ratSqrt q = some r) : 0 ≤ r ∧ r ^ 2 = q := by
  unfold ratSqrt at h
  split at h
  · exact absurd h (by simp)
  · rename_i hq
    push_neg at hq
    split at h
    · rename_i hsq
      obtain ⟨hn, hd⟩ := hsq
      simp only [Option.some.injEq] at h
      subst h
      have hnum : ((q.num.toNat : ℚ)) = (q.num : ℚ) := by
        exact_mod_cast Int.toNat_of_nonneg (Rat.num_nonneg.mpr hq)
      constructor
      · positivity
      · rw [div_pow]
        have h1 : ((natSqrtB q.num.toNat : ℚ)) ^ 2 = ((q.num.toNat : ℚ)) := by
          exact_mod_cast hn
        have h2 : ((natSqrtB q.den : ℚ)) ^ 2 = ((q.den : ℚ)) := by
          exact_mod_cast hd
        rw [h1, h2, hnum]
        exact Rat.num_div_den q
    · exact absurd h (by simp)

/-- C10: assigning a new value to the pos property preserves the velocity
(the stored previous position is rewritten to keep the displacement), and
leaves mass, radius, accumulated force and color untouched. -/
theorem pos_setter_preserves_velocity (b : Body) (value : Vec2) (dt : ℚ) :
    (b.setPos value).vel dt = b.vel dt ∧
    (b.setPos value).pos = value ∧
    (b.setPos value).mass = b.mass ∧
    (b.setPos value).radius = b.radius ∧
    (b.setPos value).force = b.force ∧
    (b.setPos value).baseColor = b.baseColor := by
  refine ⟨?_, rfl, rfl, rfl, rfl, rfl⟩
  show vdiv (value - (value - (b.pos - b.oldPos))) dt = vdiv (b.pos - b.oldPos) dt
  rw [sub_sub_cancel]

/-- C1 (code bug): merging the bodies mb1 (mass 1) and mb2 (mass 7) yields a
body of mass 25, not the summed mass 8, because the density assignment inside
merge_bodies rewrites the mass through the density setter; the velocity half
of the claim does hold at this input (the mass-weighted average (-1/8, 0)). -/
theorem merge_mass_not_conserved :
    (mergeBodies 1 2 mb1 mb2).map Body.mass = some 25 ∧
    mb1.mass + mb2.mass = 8 ∧
    (25 : ℚ) ≠ 8 ∧
    (mergeBodies 1 2 mb1 mb2).map (fun b => b.vel 1) =
      some (vdiv (smul mb1.mass (mb1.vel 1) + smul mb2.mass (mb2.vel 1))
        (mb1.mass + mb2.mass)) := by
  refine ⟨by decide, by decide, by norm_num, by decide⟩

/-- C4 (code bug): add_internal_energy changes the center-of-mass velocity of
the composite [cbA, cbB] from (1, 0) to (4/5, 0) when energy 1/2 is added,
contradicting the claim (and the method's own docstring). -/
theorem internal_energy_changes_com_velocity :
    comVel 1 [cbA, cbB] = (1, 0) ∧
    (addInternalEnergy 1 [cbA, cbB] (1 / 2)).map (comVel 1) = some (4 / 5, 0) ∧
    ((4 / 5 : ℚ), (0 : ℚ)) ≠ ((1 : ℚ), (0 : ℚ)) := by
  refine ⟨by decide, by decide, by norm_num⟩

/-- C8 (code bug): building on an empty body set leaves the root unset;
compute_forces over the empty body list is a no-op, but
compute_overlapping_pairs dereferences the None root and raises an
AttributeError (modelled as the error value) because the precondition check
of the source is commented out. -/
theorem empty_build_then_query (fuel : Nat) (rc : Option Vec2) (rw : Option ℚ)
    (fm : Body → QNode → Vec2) (theta : ℚ) :
    buildTree fuel [] rc rw = some none ∧
    computeForcesBH fm theta [] none = some [] ∧
    computePairsBH none = Except.error () := by
  refine ⟨by simp [buildTree], rfl, rfl⟩

/-- C9 (code bug): at exactly zero distance none of the three pairwise force
models is special-cased: gravitational_force raises ZeroDivisionError at the
division by dist_sq, and repulsion_force and collision_damping_force raise
the pygame ValueError when normalizing the zero displacement. -/
theorem coincident_bodies_force_errors (G strength slack beta damping dt : ℚ)
    (factor : ℚ → ℚ → ℚ → ℚ) (powFn : ℚ → ℚ → ℚ) (body1 body2 : Body)
    (hpos : body1.pos = body2.pos) (hr : 0 ≤ body1.radius + body2.radius)
    (hs : 0 ≤ slack) :
    gravitationalForce G body1 body2 = .error .zeroDivision ∧
    repulsionForce factor powFn strength slack beta body1 body2 = .error .normalizeZero ∧
    collisionDampingForce damping dt body1 body2 = .error .normalizeZero := by
  have hd1 : body2.pos - body1.pos = ((0 : ℚ), (0 : ℚ)) := by
    rw [hpos]; exact sub_self _
  have hd2 : body1.pos - body2.pos = ((0 : ℚ), (0 : ℚ)) := by
    rw [hpos]; exact sub_self _
  have hn0 : normSq ((0 : ℚ), (0 : ℚ)) = 0 := by decide
  have hs0 : ratSqrt 0 = some 0 := by decide
  have hq0 : qnormalize ((0 : ℚ), (0 : ℚ)) = none := by decide
  have hgt : ¬ ((0 : ℚ) > body1.radius + body2.radius + slack) := by
    push_neg
    linarith
  have hlt : ¬ (body1.radius + body2.radius - 0 < 0) := by
    push_neg
    linarith
  refine ⟨?_, ?_, ?_⟩
  · simp only [gravitationalForce, hd1, hn0, eq_self_iff_true, if_true]
  · simp only [repulsionForce, hd2, hn0, hs0, if_neg hgt, hq0, eq_self_iff_true, if_true]
  · simp only [collisionDampingForce, hd1, hn0, hs0, if_neg hlt, hq0, eq_self_iff_true, if_true]

/-- Witness for C9 at the concrete coincident pair gb1, gb2. -/
theorem coincident_bodies_force_errors_witness :
    gravitationalForce 1 gb1 gb2 = .error .zeroDivision ∧
    repulsionForce (fun _ _ _ => 5) (fun a _ => a) 200 (1 / 1000) (3 / 2) gb1 gb2 =
      .error .normalizeZero ∧
    collisionDampingForce 10 1 gb1 gb2 = .error .normalizeZero :=
  coincident_bodies_force_errors 1 200 (1 / 1000) (3 / 2) 10 1
    (fun _ _ _ => 5) (fun a _ => a) gb1 gb2 (by decide) (by norm_num [gb1, gb2]) (by norm_num)

/-- Applying a force to a body by id does not disturb body lookup except for
the force field of the found body. -/
theorem findBody_applyForceToId (bodies : List Body) (i : Nat) (f : Vec2) (j : Nat) :
    findBody (applyForceToId bodies i f) j =
      (findBody bodies j).map (fun b => if b.id = i then b.addForce f else b) := by
  unfold findBody applyForceToId
  induction bodies with
  | nil => rfl
  | cons b t ih =>
    simp only [List.map_cons, List.find?_cons]
    have hid : (if b.id = i then b.addForce f else b).id = b.id := by
      by_cases h : b.id = i <;> simp [h, Body.addForce]
    have hdec : (decide ((if b.id = i then b.addForce f else b).id = j)) = decide (b.id = j) := by
      rw [hid]
    rw [hdec]
    by_cases hb : b.id = j
    · simp [hb]
    · simp only [hb, decide_eq_true_eq, if_neg hb]
      simpa using ih

/-- The outcome of a spring step only depends on the kinematic fields of the
bodies, so accumulated forces do not change it. -/
theorem springStep_applyForceToId (bodies : List Body) (i : Nat) (f : Vec2) (dt : ℚ)
    (s : SpringT) :
    springStep (applyForceToId bodies i f) dt s = springStep bodies dt s := by
  unfold springStep
  rw [findBody_applyForceToId, findBody_applyForceToId]
  rcases hf1 : findBody bodies s.b1 with _ | bb1 <;>
    rcases hf2 : findBody bodies s.b2 with _ | bb2 <;>
      simp only [Option.map_none', Option.map_some']
  have hpos : ∀ b : Body, (if b.id = i then b.addForce f else b).pos = b.pos := by
    intro b; by_cases h : b.id = i <;> simp [h, Body.addForce]
  have hold : ∀ b : Body, (if b.id = i then b.addForce f else b).oldPos = b.oldPos := by
    intro b; by_cases h : b.id = i <;> simp [h, Body.addForce]
  simp only [Body.vel, hpos, hold]

/-- The removal list accumulated by the update fold is the filter of the
processed springs by the removal outcome, computed against the initial
bodies. -/
theorem foldlM_updateStep_removeList (dt : ℚ) (bodies0 : List Body) :
    ∀ (springs : List SpringT) (bs : List Body) (rm : List SpringT)
      (res : List Body × List SpringT),
    (∀ x, springStep bs dt x = springStep bodies0 dt x) →
    springs.foldlM (updateStep dt) (bs, rm) = some res →
    res.2 = rm ++ springs.filter
      (fun x => springStep bodies0 dt x == some SpringOutcome.removeSpring) := by
  intro springs
  induction springs with
  | nil =>
    intro bs rm res _ hfold
    simp only [List.foldlM_nil, Option.pure_def, Option.some.injEq] at hfold
    simp [← hfold]
  | cons s t ih =>
    intro bs rm res hk hfold
    rw [List.foldlM_cons] at hfold
    rcases hout : springStep bs dt s with _ | out
    · rw [updateStep, hout] at hfold
      exact absurd hfold (by simp)
    · rw [hk s] at hout
      cases out with
      | removeSpring =>
        rw [updateStep, hk s, hout] at hfold
        have := ih bs (rm ++ [s]) res hk hfold
        rw [this, List.filter_cons_of_pos (by simp [hout]), List.append_assoc]
        rfl
      | skip =>
        rw [updateStep, hk s, hout] at hfold
        have := ih bs rm res hk hfold
        rw [this, List.filter_cons_of_neg (by simp [hout])]
      | applyF fo =>
        rw [updateStep, hk s, hout] at hfold
        have hk2 : ∀ x, springStep (applyForceToId (applyForceToId bs s.b1 fo) s.b2 (-fo)) dt x
            = springStep bodies0 dt x := by
          intro x
          rw [springStep_applyForceToId, springStep_applyForceToId, hk x]
        have := ih _ rm res hk2 hfold
        rw [this, List.filter_cons_of_neg (by simp [hout])]

/-- Folding erase over a list of elements all different from the head leaves
the head in place. -/
theorem foldl_erase_cons_of_ne {α : Type} [DecidableEq α] (a : α) :
    ∀ (xs : List α) (init : List α), (∀ x ∈ xs, x ≠ a) →
    List.foldl List.erase (a :: init) xs = a :: List.foldl List.erase init xs := by
  intro xs
  induction xs with
  | nil => intro init _; rfl
  | cons x t ih =>
    intro init hne
    rw [List.foldl_cons, List.foldl_cons]
    rw [List.erase_cons_tail (a := x) (by simp [Ne.symm (hne x (by simp))])]
    exact ih (init.erase x) (fun y hy => hne y (by simp [hy]))

/-- Erasing, one occurrence at a time, every element of the filter of a list
from that list is the filter by the complementary predicate.  This is the
effect of the removal loop of Springs.update. -/
theorem foldl_erase_filter {α : Type} [DecidableEq α] (p : α → Bool) :
    ∀ l : List α, List.foldl List.erase l (l.filter p) = l.filter (fun x => !(p x)) := by
  intro l
  induction l with
  | nil => rfl
  | cons a t ih =>
    by_cases hp : p a
    · rw [List.filter_cons_of_pos hp, List.foldl_cons, List.erase_cons_head,
        List.filter_cons_of_neg (by simp [hp]), ih]
    · rw [List.filter_cons_of_neg (by simp [hp]),
        List.filter_cons_of_pos (by simp [hp]),
        foldl_erase_cons_of_ne a (t.filter p) t
          (fun x hx => by
            intro hxa
            have := List.of_mem_filter hx
            rw [hxa] at this
            simp [hp] at this),
        ih]

/-- After a successful update the remaining springs are exactly those whose
step outcome, judged against the pre-update bodies, is not removal. -/
theorem update_springs_eq (st st' : SpringsState) (h : update st = some st') :
    st'.springs = st.springs.filter
      (fun s => !(springStep st.bodies st.dt s == some SpringOutcome.removeSpring)) := by
  unfold update at h
  rcases hacc : st.springs.foldlM (updateStep st.dt) (st.bodies, ([] : List SpringT))
    with _ | acc
  · rw [hacc] at h
    exact absurd h (by simp)
  · rw [hacc] at h
    simp only [Option.bind_eq_bind, Option.some_bind, Option.pure_def,
      Option.some.injEq] at h
    have hrm := foldlM_updateStep_removeList st.dt st.bodies st.springs st.bodies []
      acc (fun _ => rfl) hacc
    rw [← h]
    show List.foldl List.erase st.springs acc.2 = _
    rw [hrm, List.nil_append]
    exact foldl_erase_filter _ st.springs

/-- C7: a spring whose current length exceeds break_distance_factor times its
rest length when update() runs has removal as its loop outcome (so no force
from it is applied to either endpoint during that call), and it is gone from
the spring list afterwards. -/
theorem spring_over_break_distance_removed (st st' : SpringsState) (s : SpringT)
    (hex : lengthExceeds st.bodies s = true)
    (hup : update st = some st') :
    springStep st.bodies st.dt s = some SpringOutcome.removeSpring ∧ s ∉ st'.springs := by
  have hstep : springStep st.bodies st.dt s = some SpringOutcome.removeSpring := by
    unfold lengthExceeds at hex
    split at hex
    · rename_i bb1 bb2 hf1 hf2
      unfold springStep
      rw [hf1, hf2]
      simp [hex]
    · exact absurd hex (by simp)
  refine ⟨hstep, ?_⟩
  rw [update_springs_eq st st' hup]
  intro hmem'
  have hcond := (List.mem_filter.mp hmem').2
  simp [hstep] at hcond

/-- Witness for C7: the spring s7 with rest length 1 and break factor 3 at
separation 5 is removed by update and applies no force. -/
theorem spring_over_break_distance_removed_witness :
    springStep st7.bodies st7.dt s7 = some SpringOutcome.removeSpring ∧ s7 ∉ st7r.springs :=
  spring_over_break_distance_removed st7 st7r s7 (by decide) (by decide)

/-- C5 amended: Springs.link never consults connected and unconditionally
appends exactly one spring for the linked pair, so several springs may join
one pair after repeated links; the connected query is correct (true exactly
when at least one spring joins the pair in either orientation), which lets
callers enforce uniqueness, but the class itself does not. -/
theorem link_appends_and_connected_iff :
    (∀ (st : SpringsState) (body1 body2 : Body) (stiffness damping equi bdf : ℚ)
       (bf : Option ℚ) (st' : SpringsState),
       link st body1 body2 stiffness damping (some equi) bdf bf = some st' →
       st'.springs = st.springs ++
         [⟨body1.id, body2.id, stiffness, damping, equi, bdf, bf⟩]) ∧
    (∀ (st : SpringsState) (body1 body2 : Body),
       connected st body1 body2 = true ↔
         ∃ s ∈ st.springs, (s.b1 = body1.id ∧ s.b2 = body2.id) ∨
           (s.b1 = body2.id ∧ s.b2 = body1.id)) := by
  constructor
  · intro st body1 body2 stiffness damping equi bdf bf st' h
    simp only [link, Option.pure_def, Option.bind_eq_bind, Option.some_bind,
      Option.some.injEq] at h
    rw [← h]
  · intro st body1 body2
    unfold connected
    rw [List.any_eq_true]
    constructor
    · rintro ⟨s, hs, hcond⟩
      refine ⟨s, hs, ?_⟩
      simp only [Bool.or_eq_true, Bool.and_eq_true, beq_iff_eq] at hcond
      rcases hcond with ⟨ha, hb⟩ | ⟨ha, hb⟩
      · exact Or.inl ⟨ha.symm, hb.symm⟩
      · exact Or.inr ⟨hb.symm, ha.symm⟩
    · rintro ⟨s, hs, hcond⟩
      refine ⟨s, hs, ?_⟩
      simp only [Bool.or_eq_true, Bool.and_eq_true, beq_iff_eq]
      rcases hcond with ⟨ha, hb⟩ | ⟨ha, hb⟩
      · exact Or.inl ⟨ha.symm, hb.symm⟩
      · exact Or.inr ⟨hb.symm, ha.symm⟩

/-- Witness for C5: linking the two resting bodies with explicit rest
length 7 appends exactly that spring to the empty network. -/
theorem link_appends_and_connected_iff_witness :
    ({ bodies := [swA, swB], springs := [⟨0, 1, 10, 1, 7, 3, none⟩], dt := 1 } :
        SpringsState).springs =
      swSt.springs ++ [⟨swA.id, swB.id, 10, 1, 7, 3, none⟩] :=
  link_appends_and_connected_iff.1 swSt swA swB 10 1 7 3 none _ (by decide)

/-- Counterexample for C5 as stated: linking the same pair twice leaves two
springs connecting it, so the network does not maintain at most one spring
per unordered pair. -/
theorem double_link_gives_two_springs :
    ((link swSt swA swB 10 1 (some 7) 3 none).bind
        (fun st1 => link st1 swA swB 10 1 (some 7) 3 none)).map
      (fun st2 => (st2.springs.filter (fun s =>
        (s.b1 == swA.id && s.b2 == swB.id) || (s.b1 == swB.id && s.b2 == swA.id))).length) =
      some 2 ∧ ¬ (2 ≤ 1) :=
  ⟨by decide, by norm_num⟩

/-- C6 amended: linking two live bodies with the default parameters (rest
length defaulting to the current separation) and then immediately running the
update loop, the elastic term of the new spring is zero; provided the two
bodies also have equal velocities (so the damping term −damping·(v1−v2)
vanishes as well) the outcome of the new spring is a skip or a zero applied
force. -/
theorem link_default_then_update_zero_force (st : SpringsState) (body1 body2 : Body)
    (st1 : SpringsState)
    (h1 : findBody st.bodies body1.id = some body1)
    (h2 : findBody st.bodies body2.id = some body2)
    (hveq : body1.vel st.dt = body2.vel st.dt)
    (hlink : linkDefault st body1 body2 = some st1) :
    ∃ sp, st1.springs = st.springs ++ [sp] ∧
      (springStep st1.bodies st1.dt sp = some SpringOutcome.skip ∨
       springStep st1.bodies st1.dt sp = some (SpringOutcome.applyF (0, 0))) := by
  unfold linkDefault link at hlink
  rcases he : ratSqrt (normSq (body2.pos - body1.pos)) with _ | e
  · rw [he] at hlink
    exact absurd hlink (by simp)
  · rw [he] at hlink
    simp only [Option.pure_def, Option.bind_eq_bind, Option.some_bind,
      Option.some.injEq] at hlink
    obtain ⟨hge, hesq⟩ := ratSqrt_spec _ _ he
    refine ⟨⟨body1.id, body2.id, 10, 1, e, 3, none⟩, ?_, ?_⟩
    · rw [← hlink]
    · have hbodies : st1.bodies = st.bodies := by rw [← hlink]
      have hdt : st1.dt = st.dt := by rw [← hlink]
      rw [hbodies, hdt]
      have hng : sqrtGt (normSq (body2.pos - body1.pos)) (3 * e) = false := by
        unfold sqrtGt
        rw [Bool.or_eq_false_iff]
        constructor
        · simp only [decide_eq_false_iff_not, not_lt]
          positivity
        · simp only [decide_eq_false_iff_not, not_lt, hesq]
          nlinarith [sq_nonneg e]
      unfold springStep
      simp only [h1, h2]
      by_cases hsk : sqrtLt (normSq (body2.pos - body1.pos)) (1 / 1000) = true
      · left
        simp only [hng, Bool.false_eq_true, if_false, hsk, if_true]
      · rw [Bool.not_eq_true] at hsk
        right
        have hf : smul (10 * (e - e)) (vdiv (body2.pos - body1.pos) e) -
            smul 1 (body1.vel st.dt - body2.vel st.dt) = ((0 : ℚ), (0 : ℚ)) := by
          rw [hveq]
          simp [smul, vdiv, Prod.ext_iff]
        have hca : clampApply (normSq ((0 : ℚ), (0 : ℚ))) ((0 : ℚ), (0 : ℚ)) =
            some (SpringOutcome.applyF (0, 0)) := by decide
        simp only [hng, Bool.false_eq_true, if_false, hsk, he,
          Option.bind_eq_bind, Option.some_bind, hf, hca]

/-- Witness for C6 at the resting pair swA, swB separated by distance 5: the
default link produces a spring whose first update outcome applies zero
force. -/
theorem link_default_then_update_zero_force_witness :
    ∃ sp, ({ bodies := [swA, swB], springs := [⟨0, 1, 10, 1, 5, 3, none⟩], dt := 1 } :
        SpringsState).springs = swSt.springs ++ [sp] ∧
      (springStep [swA, swB] 1 sp = some SpringOutcome.skip ∨
       springStep [swA, swB] 1 sp = some (SpringOutcome.applyF (0, 0))) :=
  link_default_then_update_zero_force swSt swA swB _ (by decide) (by decide) (by decide)
    (by decide)

/-- Counterexample for C6 as stated: the bodies sbA (velocity (1, 0)) and sbB
(at rest) are linked with the default rest length and update is called
immediately; the damping term applies the nonzero force (-1, 0) to sbA. -/
theorem link_default_then_update_nonzero_force :
    ((linkDefault spSt sbA sbB).bind update).map (fun st => st.bodies.map Body.force) =
      some [(-1, 0), (1, 0)] ∧ ((-1 : ℚ), (0 : ℚ)) ≠ ((0 : ℚ), (0 : ℚ)) :=
  ⟨by decide, by norm_num [Prod.ext_iff]⟩

mutual

/-- The overlap search of one body against a subtree preserves the
accumulator invariant. -/
theorem checkOverlap_inv (qb : Body) (t : QNode) (acc : OverlapAcc) (h : AccInv acc) :
    AccInv (checkOverlap qb t acc) := by
  obtain ⟨center, width, mass, mc, rbody, children⟩ := t
  cases children with
  | nil =>
    cases rbody with
    | none => simpa [checkOverlap] using h
    | some rb =>
      simp only [checkOverlap]
      obtain ⟨hall, hnd, hsub⟩ := h
      split_ifs with h1 h2 h3
      · exact ⟨hall, hnd, hsub⟩
      · refine ⟨?_, ?_, ?_⟩
        · intro p hp
          rcases List.mem_append.mp hp with hp | hp
          · exact hall p hp
          · simp only [List.mem_singleton] at hp
            subst hp
            exact ⟨Ne.symm h1, h2⟩
        · rw [List.map_append]
          refine List.Nodup.append hnd (List.nodup_singleton _) ?_
          intro k hk hk2
          simp only [List.map_cons, List.map_nil, List.mem_singleton] at hk2
          subst hk2
          exact h3 (hsub _ hk)
        · intro k hk
          rw [List.map_append] at hk
          rcases List.mem_append.mp hk with hk | hk
          · exact List.mem_append.mpr (Or.inl (hsub _ hk))
          · simp only [List.map_cons, List.map_nil, List.mem_singleton] at hk
            subst hk
            exact List.mem_append.mpr (Or.inr (by simp))
      · exact ⟨hall, hnd, hsub⟩
      · exact ⟨hall, hnd, hsub⟩
  | cons c rest =>
    simp only [checkOverlap]
    exact checkOverlapList_inv qb (c :: rest) acc h
termination_by sizeOf t

/-- The overlap search over a list of subtrees preserves the accumulator
invariant. -/
theorem checkOverlapList_inv (qb : Body) (ts : List QNode) (acc : OverlapAcc) (h : AccInv acc) :
    AccInv (checkOverlapList qb ts acc) := by
  cases ts with
  | nil => simpa [checkOverlapList] using h
  | cons c rest =>
    simp only [checkOverlapList]
    refine checkOverlapList_inv qb rest _ ?_
    by_cases hr : regionsOverlap qb c.center c.width = true
    · rw [if_pos hr]
      exact checkOverlap_inv qb c acc h
    · rw [if_neg hr]
      exact h
termination_by sizeOf ts

end

mutual

/-- The leaf walk of compute_overlapping_pairs preserves the accumulator
invariant. -/
theorem walkLeaves_inv (full t : QNode) (acc : OverlapAcc) (h : AccInv acc) :
    AccInv (walkLeaves full t acc) := by
  obtain ⟨center, width, mass, mc, rbody, children⟩ := t
  cases children with
  | nil =>
    cases rbody with
    | none => simpa [walkLeaves] using h
    | some b =>
      simp only [walkLeaves]
      exact checkOverlap_inv b full acc h
  | cons c rest =>
    simp only [walkLeaves]
    exact walkLeavesList_inv full (c :: rest) acc h
termination_by sizeOf t

/-- The leaf walk over a list of subtrees preserves the accumulator
invariant. -/
theorem walkLeavesList_inv (full : QNode) (ts : List QNode) (acc : OverlapAcc) (h : AccInv acc) :
    AccInv (walkLeavesList full ts acc) := by
  cases ts with
  | nil => simpa [walkLeavesList] using h
  | cons c rest =>
    simp only [walkLeavesList]
    exact walkLeavesList_inv full rest _ (walkLeaves_inv full c acc h)
termination_by sizeOf ts

end

/-- C3 amended: on any built tree, compute_overlapping_pairs is sound and
duplicate-free: every reported pair consists of two distinct bodies whose
distance is below the sum of their radii, and no unordered pair is reported
twice.  Completeness fails in general (see the counterexample): a body
dropped during construction is never reported. -/
theorem compute_pairs_sound_and_unique (root : QNode) :
    (∀ p ∈ computePairs root, p.1.id ≠ p.2.id ∧ bodiesOverlap p.1 p.2 = true) ∧
    ((computePairs root).map (fun p => pairKey p.1.id p.2.id)).Nodup := by
  have h := walkLeaves_inv root root ([], []) ⟨by simp, by simp, by simp⟩
  exact ⟨h.1, h.2.1⟩

/-- Witness for C3 on the concrete tree troot, which reports exactly the
pair (ob1, ob2). -/
theorem compute_pairs_sound_and_unique_witness :
    (ob1.id ≠ ob2.id ∧ bodiesOverlap ob1 ob2 = true) ∧
    ((computePairs troot).map (fun p => pairKey p.1.id p.2.id)).Nodup :=
  ⟨(compute_pairs_sound_and_unique troot).1 (ob1, ob2) (by decide),
   (compute_pairs_sound_and_unique troot).2⟩

set_option maxHeartbeats 2000000 in
/-- Counterexample for C3 as stated: with the default region, the boundary
body tb2 is dropped during construction, so the overlapping pair
(tb1, tb2) — whose distance 2 is far below the radius sum 6 — is never
reported. -/
theorem overlapping_pair_missed :
    (buildTree 3 [tb1, tb2] none none).map (Option.map computePairs) = some (some []) ∧
    bodiesOverlap tb1 tb2 = true :=
  ⟨by decide, by decide⟩

/-- Freshly subdivided children satisfy the structural invariant. -/
theorem wfChildren_subdivide (center : Vec2) (width : ℚ) :
    wfChildren (subdivideChildren center width) = true := by
  simp [subdivideChildren, wfChildren, wfNode]

/-- Freshly subdivided children carry zero total mass. -/
theorem sumMass_subdivide (center : Vec2) (width : ℚ) :
    sumMass (subdivideChildren center width) = 0 := by
  simp [subdivideChildren, sumMass, QNode.mass]

/-- A subdivision always produces children. -/
theorem subdivide_not_isEmpty (center : Vec2) (width : ℚ) :
    (subdivideChildren center width).isEmpty = false := by
  simp [subdivideChildren]

/-- Tiling of a region by its subdivision: a position inside the region lies
inside one of any four children that carry the subdivision regions. -/
theorem contains_subdivide (center : Vec2) (width : ℚ) (p : Vec2)
    (hc : containsPos center width p = true)
    (cs : List QNode)
    (hr : cs.map (fun c => (c.center, c.width)) = subdivideRegions center width) :
    ∃ c ∈ cs, containsPos c.center c.width p = true := by
  have hlen : cs.length = 4 := by
    have := congrArg List.length hr
    simpa [subdivideRegions, subdivideChildren] using this
  rcases cs with _ | ⟨c1, _ | ⟨c2, _ | ⟨c3, _ | ⟨c4, _ | ⟨c5, cs⟩⟩⟩⟩⟩ <;> simp at hlen
  obtain ⟨a1, w1, m1, mc1, b1, ch1⟩ := c1
  obtain ⟨a2, w2, m2, mc2, b2, ch2⟩ := c2
  obtain ⟨a3, w3, m3, mc3, b3, ch3⟩ := c3
  obtain ⟨a4, w4, m4, mc4, b4, ch4⟩ := c4
  simp only [subdivideRegions, subdivideChildren, List.map_cons, List.map_nil,
    QNode.center, QNode.width, List.cons.injEq, and_true, Prod.mk.injEq] at hr
  obtain ⟨⟨h1c, h1w⟩, ⟨h2c, h2w⟩, ⟨h3c, h3w⟩, ⟨h4c, h4w⟩⟩ := hr
  simp only [containsPos, Bool.and_eq_true, decide_eq_true_eq] at hc
  obtain ⟨⟨⟨hx1, hx2⟩, hy1⟩, hy2⟩ := hc
  by_cases hx : p.1 < center.1 <;> by_cases hy : p.2 < center.2
  · refine ⟨QNode.mk a1 w1 m1 mc1 b1 ch1, by simp, ?_⟩
    simp only [QNode.center, QNode.width, h1c, h1w, containsPos, Bool.and_eq_true,
      decide_eq_true_eq, Prod.fst_add, Prod.snd_add]
    refine ⟨⟨⟨?_, ?_⟩, ?_⟩, ?_⟩ <;> linarith
  · refine ⟨QNode.mk a2 w2 m2 mc2 b2 ch2, by simp, ?_⟩
    simp only [QNode.center, QNode.width, h2c, h2w, containsPos, Bool.and_eq_true,
      decide_eq_true_eq, Prod.fst_add, Prod.snd_add]
    refine ⟨⟨⟨?_, ?_⟩, ?_⟩, ?_⟩ <;> linarith
  · refine ⟨QNode.mk a3 w3 m3 mc3 b3 ch3, by simp, ?_⟩
    simp only [QNode.center, QNode.width, h3c, h3w, containsPos, Bool.and_eq_true,
      decide_eq_true_eq, Prod.fst_add, Prod.snd_add]
    refine ⟨⟨⟨?_, ?_⟩, ?_⟩, ?_⟩ <;> linarith
  · refine ⟨QNode.mk a4 w4 m4 mc4 b4 ch4, by simp, ?_⟩
    simp only [QNode.center, QNode.width, h4c, h4w, containsPos, Bool.and_eq_true,
      decide_eq_true_eq, Prod.fst_add, Prod.snd_add]
    refine ⟨⟨⟨?_, ?_⟩, ?_⟩, ?_⟩ <;> linarith

/-- Insertion into the first containing child preserves the invariant and
the child regions, and adds the mass of the inserted body, provided the
insertion function does so on every well-formed containing child and some
child contains the body. -/
theorem insertChildWith_spec (b : Body) (ins : QNode → Option QNode)
    (hins : ∀ c c2, wfNode c = true → containsB c b = true → ins c = some c2 →
      wfNode c2 = true ∧ c2.mass = c.mass + b.mass ∧ c2.center = c.center ∧
        c2.width = c.width) :
    ∀ (cs cs2 : List QNode), wfChildren cs = true →
      (∃ c ∈ cs, containsB c b = true) →
      insertChildWith ins cs b = some cs2 →
      wfChildren cs2 = true ∧
      cs2.map (fun c => (c.center, c.width)) = cs.map (fun c => (c.center, c.width)) ∧
      sumMass cs2 = sumMass cs + b.mass := by
  intro cs
  induction cs with
  | nil =>
    intro cs2 _ hex _
    exact absurd hex (by simp)
  | cons c rest ih =>
    intro cs2 hwf hex hicw
    rw [insertChildWith] at hicw
    rw [show wfChildren (c :: rest) = (wfNode c && wfChildren rest) from rfl,
      Bool.and_eq_true] at hwf
    obtain ⟨hwfc, hwfr⟩ := hwf
    by_cases hcb : containsB c b = true
    · rw [if_pos hcb] at hicw
      rcases hc2 : ins c with _ | c2
      · rw [hc2] at hicw
        exact absurd hicw (by simp)
      · rw [hc2] at hicw
        simp only [Option.map_some', Option.some.injEq] at hicw
        subst hicw
        obtain ⟨hw2, hm2, h2c, h2w⟩ := hins c c2 hwfc hcb hc2
        refine ⟨?_, ?_, ?_⟩
        · rw [show wfChildren (c2 :: rest) = (wfNode c2 && wfChildren rest) from rfl]
          simp [hw2, hwfr]
        · simp [h2c, h2w]
        · simp only [sumMass, List.map_cons, List.sum_cons] at *
          rw [hm2]
          ring
    · rw [if_neg hcb] at hicw
      rcases hrest : insertChildWith ins rest b with _ | cs2t
      · rw [hrest] at hicw
        exact absurd hicw (by simp)
      · rw [hrest] at hicw
        simp only [Option.map_some', Option.some.injEq] at hicw
        subst hicw
        have hex2 : ∃ x ∈ rest, containsB x b = true := by
          rcases hex with ⟨x, hx, hxc⟩
          rcases List.mem_cons.mp hx with hx | hx
          · exact absurd (hx ▸ hxc) hcb
          · exact ⟨x, hx, hxc⟩
        obtain ⟨h1, h2, h3⟩ := ih cs2t hwfr hex2 hrest
        refine ⟨?_, ?_, ?_⟩
        · rw [show wfChildren (c :: cs2t) = (wfNode c && wfChildren cs2t) from rfl]
          simp [hwfc, h1]
        · simp [h2]
        · simp only [sumMass, List.map_cons, List.sum_cons] at *
          rw [h3]
          ring

/-- An internal node whose mass is the children sum and whose children carry
the subdivision regions and are themselves well formed satisfies the
invariant, whatever its mass center and stored body are. -/
theorem wfNode_mk_internal (center : Vec2) (width massv : ℚ) (mcv : Vec2)
    (bodyv : Option Body) (d : QNode) (ds : List QNode)
    (hm : massv = sumMass (d :: ds))
    (hr : (d :: ds).map (fun c => (c.center, c.width)) = subdivideRegions center width)
    (hw : wfChildren (d :: ds) = true) :
    wfNode (QNode.mk center width massv mcv bodyv (d :: ds)) = true := by
  rw [show wfNode (QNode.mk center width massv mcv bodyv (d :: ds)) =
    ((massv == sumMass (d :: ds)) &&
     ((d :: ds).map (fun c => (c.center, c.width)) == subdivideRegions center width) &&
     wfChildren (d :: ds)) from rfl]
  simp [hm, hr, hw]

/-- Inserting a contained body into a well-formed node preserves the
invariant, the region, and adds exactly the mass of the body. -/
theorem insertBody_spec (fuel : Nat) :
    ∀ (n : QNode) (b : Body) (n2 : QNode),
      wfNode n = true → containsB n b = true → insertBody fuel n b = some n2 →
      wfNode n2 = true ∧ n2.mass = n.mass + b.mass ∧
      n2.center = n.center ∧ n2.width = n.width := by
  induction fuel using Nat.strong_induction_on with
  | _ fuel ih =>
  intro n b n2 hwf hcont hins
  obtain ⟨center, width, mass, mc, body, children⟩ := n
  rw [insertBody.eq_def] at hins
  dsimp only [QNode.center, QNode.width, QNode.mass, QNode.massCenter, QNode.body, QNode.children] at hins
  by_cases hleaf : (body.isNone && children.isEmpty) = true
  · rw [if_pos hleaf] at hins
    simp only [Bool.and_eq_true, Option.isNone_iff_eq_none, List.isEmpty_iff] at hleaf
    obtain ⟨hbn, hce⟩ := hleaf
    subst hbn
    subst hce
    simp only [Option.some.injEq] at hins
    subst hins
    have hm0 : mass = 0 := by
      have := hwf
      rw [show wfNode (QNode.mk center width mass mc none []) =
        ((mass == (0 : ℚ)) && true) from rfl] at this
      simpa using this
    refine ⟨?_, ?_, rfl, rfl⟩
    · rw [show wfNode (QNode.mk center width b.mass b.pos (some b) []) =
        ((b.mass == b.mass) && containsPos center width b.pos) from rfl]
      simp only [beq_self_eq_true, Bool.true_and]
      exact hcont
    · simp only [QNode.mass, hm0]
      ring
  · rw [if_neg hleaf] at hins
    cases fuel with
    | zero => exact absurd hins (by simp)
    | succ f =>
      rcases hchc : children with _ | ⟨ch, chrest⟩
      · -- leaf case with a stored body
        subst hchc
        rcases hbo : body with _ | old
        · subst hbo
          simp at hleaf
        · subst hbo
          simp only [List.isEmpty_nil, if_true] at hins
          rcases hinner : insertBody f
              (QNode.mk center width mass mc (some old)
                (subdivideChildren center width)) old with _ | m
          · rw [hinner] at hins
            exact absurd hins (by simp)
          · rw [hinner] at hins
            simp only [Option.map_some', Option.bind_eq_bind, Option.some_bind] at hins
            -- unfold the inner insertion one step
            rw [insertBody.eq_def] at hinner
            dsimp only [QNode.center, QNode.width, QNode.mass, QNode.massCenter, QNode.body, QNode.children] at hinner
            rw [if_neg (by simp)] at hinner
            cases f with
            | zero => exact absurd hinner (by simp)
            | succ f2 =>
              rw [subdivide_not_isEmpty] at hinner
              simp only [Bool.false_eq_true, if_false, Option.pure_def,
                Option.bind_eq_bind, Option.some_bind] at hinner
              obtain ⟨hmo, hco⟩ : mass = old.mass ∧
                  containsPos center width old.pos = true := by
                have := hwf
                rw [show wfNode (QNode.mk center width mass mc (some old) []) =
                  ((mass == old.mass) && containsPos center width old.pos) from rfl] at this
                simpa using this
              rcases hicw1 : insertChildWith (fun c => insertBody f2 c old)
                  (subdivideChildren center width) old with _ | cs1
              · rw [hicw1] at hinner
                exact absurd hinner (by simp)
              · rw [hicw1] at hinner
                simp only [Option.bind_eq_bind, Option.some_bind, Option.some.injEq] at hinner
                have hex1 : ∃ c ∈ subdivideChildren center width, containsB c old = true := by
                  obtain ⟨c0, hc0m, hc0c⟩ := contains_subdivide center width old.pos hco
                    (subdivideChildren center width) rfl
                  exact ⟨c0, hc0m, hc0c⟩
                obtain ⟨hwf1, hreg1, hsm1⟩ := insertChildWith_spec old
                  (fun c => insertBody f2 c old)
                  (fun c c2 hw hc hi => ih f2 (by omega) c old c2 hw hc hi)
                  (subdivideChildren center width) cs1
                  (wfChildren_subdivide center width) hex1 hicw1
                rw [sumMass_subdivide] at hsm1
                -- the reinserted node m
                subst hinner
                -- now the outer insertion into cs1
                simp only [recompute, QNode.center, QNode.width, QNode.mass,
                  QNode.massCenter, QNode.children, QNode.body, Option.pure_def,
                  Option.bind_eq_bind, Option.some_bind] at hins
                rcases hicw2 : insertChildWith (fun c => insertBody (f2 + 1) c b) cs1 b
                    with _ | cs2
                · rw [hicw2] at hins
                  exact absurd hins (by simp)
                · rw [hicw2] at hins
                  simp only [Option.bind_eq_bind, Option.some_bind, Option.some.injEq] at hins
                  have hex2 : ∃ c ∈ cs1, containsB c b = true := by
                    have hcp : containsPos center width b.pos = true := hcont
                    obtain ⟨c0, hc0m, hc0c⟩ := contains_subdivide center width b.pos hcp
                      cs1 (by rw [hreg1]; rfl)
                    exact ⟨c0, hc0m, hc0c⟩
                  obtain ⟨hwf2, hreg2, hsm2⟩ := insertChildWith_spec b
                    (fun c => insertBody (f2 + 1) c b)
                    (fun c c2 hw hc hi => ih (f2 + 1) (by omega) c b c2 hw hc hi)
                    cs1 cs2 hwf1 hex2 hicw2
                  subst hins
                  have hcs2ne : cs2 ≠ [] := by
                    intro hnil
                    rw [hnil] at hreg2
                    have := congrArg List.length hreg2
                    rw [hreg1] at this
                    simp [subdivideRegions, subdivideChildren] at this
                  rcases hcs2 : cs2 with _ | ⟨d, ds⟩
                  · exact absurd hcs2 hcs2ne
                  · subst hcs2
                    refine ⟨?_, ?_, rfl, rfl⟩
                    · exact wfNode_mk_internal center width _ _ _ d ds rfl
                        (by rw [hreg2, hreg1]; rfl) hwf2
                    · simp only [QNode.mass]
                      rw [hsm2, hsm1, hmo]
                      ring
      · -- internal case
        rw [hchc] at hins
        simp only [List.isEmpty_cons, Bool.false_eq_true, if_false, Option.pure_def,
          Option.bind_eq_bind, Option.some_bind] at hins
        obtain ⟨hmass, hreg, hwfc⟩ : mass = sumMass children ∧
            children.map (fun c => (c.center, c.width)) =
              subdivideRegions center width ∧
            wfChildren children = true := by
          have := hwf
          rw [hchc] at this
          rw [show wfNode (QNode.mk center width mass mc body (ch :: chrest)) =
            ((mass == sumMass (ch :: chrest)) &&
             ((ch :: chrest).map (fun c => (c.center, c.width)) ==
               subdivideRegions center width) &&
             wfChildren (ch :: chrest)) from rfl] at this
          simp only [Bool.and_eq_true, beq_iff_eq] at this
          rw [hchc]
          exact ⟨this.1.1, this.1.2, this.2⟩
        rcases hicw : insertChildWith (fun c => insertBody f c b) (ch :: chrest) b
            with _ | cs2
        · rw [hicw] at hins
          exact absurd hins (by simp)
        · rw [hicw] at hins
          simp only [Option.bind_eq_bind, Option.some_bind, Option.some.injEq] at hins
          have hex : ∃ c ∈ ch :: chrest, containsB c b = true := by
            have hcp : containsPos center width b.pos = true := hcont
            obtain ⟨c0, hc0m, hc0c⟩ := contains_subdivide center width b.pos hcp
              (ch :: chrest) (by rw [← hchc]; exact hreg)
            exact ⟨c0, hc0m, hc0c⟩
          obtain ⟨hwf2, hreg2, hsm2⟩ := insertChildWith_spec b
            (fun c => insertBody f c b)
            (fun c c2 hw hc hi => ih f (by omega) c b c2 hw hc hi)
            (ch :: chrest) cs2 (by rw [← hchc]; exact hwfc) hex hicw
          subst hins
          have hcs2ne : cs2 ≠ [] := by
            intro hnil
            rw [hnil] at hreg2
            have := congrArg List.length hreg2
            simp at this
          rcases hcs2 : cs2 with _ | ⟨d, ds⟩
          · exact absurd hcs2 hcs2ne
          · subst hcs2
            refine ⟨?_, ?_, rfl, rfl⟩
            · exact wfNode_mk_internal center width _ _ _ d ds rfl
                (by rw [hreg2, ← hchc]; exact hreg) hwf2
            · simp only [recompute, QNode.mass]
              rw [hsm2, hmass, hchc]

/-- Folding the insertion over a body list all of whose members lie in the
region of a well-formed node adds exactly the total mass. -/
theorem foldlM_insert_spec (fuel : Nat) :
    ∀ (bl : List Body) (t root : QNode),
      wfNode t = true → (∀ b ∈ bl, containsPos t.center t.width b.pos = true) →
      bl.foldlM (fun acc b => insertBody fuel acc b) t = some root →
      root.mass = t.mass + totalMass bl := by
  intro bl
  induction bl with
  | nil =>
    intro t root _ _ hf
    simp only [List.foldlM_nil, Option.pure_def, Option.some.injEq] at hf
    subst hf
    simp [totalMass]
  | cons b rest ih =>
    intro t root hwf hin hf
    rw [List.foldlM_cons] at hf
    rcases h1 : insertBody fuel t b with _ | t1
    · rw [h1] at hf
      exact absurd hf (by simp)
    · rw [h1] at hf
      obtain ⟨hwf1, hm1, hc1, hw1⟩ := insertBody_spec fuel t b t1 hwf
        (hin b (by simp)) h1
      have hin1 : ∀ x ∈ rest, containsPos t1.center t1.width x.pos = true := by
        rw [hc1, hw1]
        exact fun x hx => hin x (by simp [hx])
      have hmr := ih t1 root hwf1 hin1 hf
      rw [hmr, hm1]
      simp only [totalMass, List.map_cons, List.sum_cons]
      ring

/-- C2 amended: when the tree is built over an explicitly given region that
contains every body (in the half-open sense of _contains) and construction
succeeds, the root mass is exactly the total body mass.  As stated over the
default auto-computed region the claim fails: a body on the region boundary
is silently dropped and its mass lost (see the counterexample). -/
theorem build_tree_root_mass (fuel : Nat) (bodiesL : List Body) (rc : Vec2)
    (rwidth : ℚ) (root : QNode)
    (hin : ∀ b ∈ bodiesL, containsPos rc rwidth b.pos = true)
    (hbuild : buildTree fuel bodiesL (some rc) (some rwidth) = some (some root)) :
    root.mass = totalMass bodiesL := by
  unfold buildTree at hbuild
  by_cases hbl : bodiesL = []
  · rw [if_pos hbl] at hbuild
    exact absurd hbuild (by simp)
  · rw [if_neg hbl] at hbuild
    simp only [Option.pure_def, Option.bind_eq_bind, Option.some_bind] at hbuild
    rcases hf : bodiesL.foldlM (fun t b => insertBody fuel t b)
        (QNode.mk rc rwidth 0 (0, 0) none []) with _ | r
    · rw [hf] at hbuild
      exact absurd hbuild (by simp)
    · rw [hf] at hbuild
      simp only [Option.some_bind, Option.some.injEq] at hbuild
      subst hbuild
      have hwf0 : wfNode (QNode.mk rc rwidth 0 (0, 0) none []) = true := by
        rw [show wfNode (QNode.mk rc rwidth 0 (0, 0) none []) =
          (((0 : ℚ) == (0 : ℚ)) && true) from rfl]
        simp
      have := foldlM_insert_spec fuel bodiesL _ r hwf0 (fun b hb => hin b hb) hf
      rw [this]
      rw [show (QNode.mk rc rwidth 0 (0, 0) none []).mass = 0 from rfl]
      ring

set_option maxHeartbeats 4000000 in
/-- Witness for C2: the two bodies wb1 (mass 2) and wb2 (mass 3), both inside
the region of center (0, 0) and width 8, build a tree whose root mass is
their total mass 5. -/
theorem build_tree_root_mass_witness :
    (QNode.mk (0, 0) 8 5 (1 / 5, 1 / 5) none
      [QNode.mk (-2, -2) 4 2 (-1, -1) (some wb1) [],
       QNode.mk (-2, 2) 4 0 (0, 0) none [],
       QNode.mk (2, -2) 4 0 (0, 0) none [],
       QNode.mk (2, 2) 4 3 (1, 1) (some wb2) []]).mass = totalMass [wb1, wb2] :=
  build_tree_root_mass 3 [wb1, wb2] (0, 0) 8 _ (by decide) (by rfl)

set_option maxHeartbeats 2000000 in
/-- Counterexample for C2 as stated: with the default region, the boundary
body tb2 is dropped during construction, and the root mass 1 misses its
mass; the total body mass is 2. -/
theorem boundary_body_mass_lost :
    (buildTree 3 [tb1, tb2] none none).map (Option.map QNode.mass) = some (some 1) ∧
    totalMass [tb1, tb2] = 2 ∧ (1 : ℚ) ≠ 2 :=
  ⟨by decide, by decide, by norm_num⟩

end SpaceSim
